import Mathlib

/-!
Verification development for AriGit (src/AriGit.mjs), a minimal content-addressed
version-control engine.  The repository state (object store, HEAD file, staging
index) and the operations `hashObject`, `add`, `updateStagingArea`,
`getCurrentHead`, `commit`, `log`, `getFileContent`, `getParentFileContent` are
embedded as executable Lean functions, translated from the JavaScript source.

External primitives used by the source are embedded concretely:
* `crypto.createHash('sha1')` — a full SHA-1 implementation over byte lists;
* `JSON.stringify` for the commit record / staging entries — `stringifyCommit`,
  with JS string escaping (`jsonEscapeChar`);
* `JSON.parse` for reading back stored commit records — `parseCommit`, a parser
  for the exact serialization format the program writes (the only format it
  ever has to read back).
File-system reads and writes are modelled as operations on a `RepoState` record:
the spec treats the file system as a reliable byte-addressable store, and a file
whose read fails / whose bytes do not decode is represented by `none`.
-/

namespace AriGit

/-! ### SHA-1 (`crypto.createHash('sha1').update(content, 'utf-8').digest('hex')`) -/

/-- Truncation to a 32-bit word. -/
def w32 (x : Nat) : Nat := x % 4294967296

/-- Left rotation of a 32-bit word by `n` bits (`0 < n < 32`, `x < 2^32`). -/
def rotl (n x : Nat) : Nat := (x % 2 ^ (32 - n)) * 2 ^ n + x / 2 ^ (32 - n)

/-- SHA-1 round function: choice / parity / majority / parity. -/
def sha1F (i b c d : Nat) : Nat :=
  if i < 20 then (b &&& c) ||| ((4294967295 - b) &&& d)
  else if i < 40 then b ^^^ c ^^^ d
  else if i < 60 then (b &&& c) ||| (b &&& d) ||| (c &&& d)
  else b ^^^ c ^^^ d

/-- SHA-1 round constants. -/
def sha1K (i : Nat) : Nat :=
  if i < 20 then 1518500249 else if i < 40 then 1859775393
  else if i < 60 then 2400959708 else 3395469782

/-- Big-endian 32-bit word number `i` of a 64-byte chunk. -/
def word32At (chunk : List Nat) (i : Nat) : Nat :=
  chunk.getD (4 * i) 0 * 16777216 + chunk.getD (4 * i + 1) 0 * 65536 +
    chunk.getD (4 * i + 2) 0 * 256 + chunk.getD (4 * i + 3) 0

/-- Message-schedule extension: prepends `n` further words to the reversed
word list `ws` (`w[i] = rotl 1 (w[i-3] ^^^ w[i-8] ^^^ w[i-14] ^^^ w[i-16])`). -/
def sha1WordsRev : Nat → List Nat → List Nat
  | 0, ws => ws
  | n + 1, ws =>
    sha1WordsRev n
      (rotl 1 (ws.getD 2 0 ^^^ ws.getD 7 0 ^^^ ws.getD 13 0 ^^^ ws.getD 15 0) :: ws)

/-- The 80-entry message schedule of one 64-byte chunk. -/
def sha1Words (chunk : List Nat) : List Nat :=
  (sha1WordsRev 64 (((List.range 16).map (word32At chunk)).reverse)).reverse

/-- The 80 compression rounds, folding over the message schedule. -/
def sha1Rounds : Nat → List Nat → Nat × Nat × Nat × Nat × Nat → Nat × Nat × Nat × Nat × Nat
  | _, [], st => st
  | i, w :: ws, (a, b, c, d, e) =>
    sha1Rounds (i + 1) ws
      (w32 (rotl 5 a + sha1F i b c d + e + sha1K i + w), a, rotl 30 b, c, d)

/-- One SHA-1 chunk compression. -/
def sha1Compress (st5 : Nat × Nat × Nat × Nat × Nat) (chunk : List Nat) :
    Nat × Nat × Nat × Nat × Nat :=
  match st5, sha1Rounds 0 (sha1Words chunk) st5 with
  | (h0, h1, h2, h3, h4), (a, b, c, d, e) =>
    (w32 (h0 + a), w32 (h1 + b), w32 (h2 + c), w32 (h3 + d), w32 (h4 + e))

/-- SHA-1 initial state. -/
def sha1Init : Nat × Nat × Nat × Nat × Nat :=
  (1732584193, 4023233417, 2562383102, 271733878, 3285377520)

/-- Big-endian 64-bit encoding of a bit length. -/
def be64 (n : Nat) : List Nat :=
  [n / 2 ^ 56 % 256, n / 2 ^ 48 % 256, n / 2 ^ 40 % 256, n / 2 ^ 32 % 256,
   n / 2 ^ 24 % 256, n / 2 ^ 16 % 256, n / 2 ^ 8 % 256, n % 256]

/-- SHA-1 padding: `0x80`, zeros to 56 mod 64, then the bit length. -/
def sha1Pad (msg : List Nat) : List Nat :=
  msg ++ 128 :: List.replicate ((119 - msg.length % 64) % 64) 0 ++ be64 (8 * msg.length)

/-- Splits a byte list into 64-byte chunks; `fuel` bounds the recursion and is
instantiated with the list length (one chunk consumes 64 bytes, so the length
is always enough fuel). -/
def chunks64 : Nat → List Nat → List (List Nat)
  | 0, _ => []
  | _, [] => []
  | fuel + 1, l => l.take 64 :: chunks64 fuel (l.drop 64)

/-- The final SHA-1 state of a byte message. -/
def sha1Final (msg : List Nat) : Nat × Nat × Nat × Nat × Nat :=
  (chunks64 (sha1Pad msg).length (sha1Pad msg)).foldl sha1Compress sha1Init

/-- Lower-case hex digit of `n < 16`. -/
def hexDigit (n : Nat) : Char :=
  if n < 10 then Char.ofNat (48 + n) else Char.ofNat (87 + n)

/-- The eight hex digits of a 32-bit word, most significant first. -/
def toHex8 (w : Nat) : List Char :=
  [hexDigit (w / 16 ^ 7 % 16), hexDigit (w / 16 ^ 6 % 16), hexDigit (w / 16 ^ 5 % 16),
   hexDigit (w / 16 ^ 4 % 16), hexDigit (w / 16 ^ 3 % 16), hexDigit (w / 16 ^ 2 % 16),
   hexDigit (w / 16 % 16), hexDigit (w % 16)]

/-- The 40 hex characters of the SHA-1 digest of a byte message. -/
def sha1HexChars (msg : List Nat) : List Char :=
  match sha1Final msg with
  | (a, b, c, d, e) => toHex8 a ++ toHex8 b ++ toHex8 c ++ toHex8 d ++ toHex8 e

/-- Hex-encoded SHA-1 digest of a byte message. -/
def sha1Hex (msg : List Nat) : String := String.mk (sha1HexChars msg)

/-- UTF-8 encoding of a single code point. -/
def utf8Char (n : Nat) : List Nat :=
  if n < 128 then [n]
  else if n < 2048 then [192 + n / 64, 128 + n % 64]
  else if n < 65536 then [224 + n / 4096, 128 + n / 64 % 64, 128 + n % 64]
  else [240 + n / 262144, 128 + n / 4096 % 64, 128 + n / 64 % 64, 128 + n % 64]

/-- UTF-8 encoding of a character sequence. -/
def utf8Bytes : List Char → List Nat
  | [] => []
  | c :: cs => utf8Char c.toNat ++ utf8Bytes cs

/-- Operation `AriGit.hashObject(content)`: hex SHA-1 of the UTF-8 bytes of `content`.
Determinism (spec §4.1) is definitional: this is a pure function. -/
def hashObject (content : String) : String := sha1Hex (utf8Bytes content.data)

/-! ### Data model: staging entries, commit records, repository state -/

/-- One staging-index entry, `{ path, hash }` (src/AriGit.mjs line 50). -/
structure StagingEntry where
  path : String
  hash : String
deriving DecidableEq, Repr

/-- The commit record built by `AriGit.commit` (src/AriGit.mjs lines 71–77),
field order as in the source object literal. -/
structure CommitData where
  timeStamp : String
  message : String
  files : List StagingEntry
  parent : Option String
  username : String
deriving DecidableEq, Repr

/-- Repository state: the `.arigit` directory.
* `objects` — the flat `objects/` directory as an association list from digest
  to raw file bytes; a write prepends, a read takes the first match (so a
  rewrite of the same name shadows, as on a real file system).
* `headFile` — content of `HEAD`; `none` models a read failure (missing file /
  I/O error), `some s` a file whose read yields `s`.
* `indexFile` — the staging-index file, seen through `JSON.parse`: `some l`
  models bytes that decode to the entry list `l` (the program only ever writes
  `JSON.stringify` of such a list), `none` bytes on which the read/parse/push
  pipeline throws.  Bytes holding valid JSON that is not an entry sequence
  behave like `none` in `updateStagingArea` (where `index.push` throws) but
  not in `commit`; that finer case is modelled by `RepoStateRaw` and
  `commitRaw` below. -/
structure RepoState where
  objects : List (String × String)
  headFile : Option String
  indexFile : Option (List StagingEntry)
deriving DecidableEq, Repr

/-- Read of `objects/<digest>`: first binding of the digest, `none` = NotFound. -/
def storeGet : List (String × String) → String → Option String
  | [], _ => none
  | (k, v) :: rest, d => if k = d then some v else storeGet rest d

/-- Read of a working-directory file (`fs.readFile(fileToBeAdded)`),
`none` = the read fails. -/
def readWorkingFile : List (String × String) → String → Option String
  | [], _ => none
  | (k, v) :: rest, p => if k = p then some v else readWorkingFile rest p

/-! ### `JSON.stringify` of the records the program writes -/

/-- JS `JSON.stringify` escaping of one character of a string. -/
def jsonEscapeChar (c : Char) : List Char :=
  if c = '"' then ['\\', '"']
  else if c = '\\' then ['\\', '\\']
  else if c = '\n' then ['\\', 'n']
  else if c = '\r' then ['\\', 'r']
  else if c = '\t' then ['\\', 't']
  else if c.toNat = 8 then ['\\', 'b']
  else if c.toNat = 12 then ['\\', 'f']
  else if c.toNat < 32 then
    ['\\', 'u', '0', '0', hexDigit (c.toNat / 16), hexDigit (c.toNat % 16)]
  else [c]

/-- Escapes every character of a string body. -/
def escList : List Char → List Char
  | [] => []
  | c :: cs => jsonEscapeChar c ++ escList cs

/-- A JSON string literal: `"` body `"`. -/
def jstrChars (s : String) : List Char := '"' :: (escList s.data ++ ['"'])

/-- Serialization `JSON.stringify({path, hash})` of one staging entry. -/
def entryChars (e : StagingEntry) : List Char :=
  "\x7b\"path\":".data ++ jstrChars e.path ++ ",\"hash\":".data ++ jstrChars e.hash
    ++ "\x7d".data

/-- The `,`-separated tail of a JSON array of staging entries. -/
def entriesTailChars : List StagingEntry → List Char
  | [] => []
  | e :: es => ',' :: entryChars e ++ entriesTailChars es

/-- Serialization `JSON.stringify` of a staging-entry array. -/
def filesChars (l : List StagingEntry) : List Char :=
  '[' :: ((match l with
           | [] => []
           | e :: es => entryChars e ++ entriesTailChars es) ++ [']'])

/-- Serialization `JSON.stringify` of the `parent` field: `null` or a string. -/
def parentChars : Option String → List Char
  | none => "null".data
  | some p => jstrChars p

/-- Serialization `JSON.stringify(commitData)` (src/AriGit.mjs line 79/82): key order is the
object-literal insertion order; `parent: null` when absent. -/
def commitChars (cd : CommitData) : List Char :=
  "\x7b\"timeStamp\":".data ++ jstrChars cd.timeStamp
    ++ ",\"message\":".data ++ jstrChars cd.message
    ++ ",\"files\":".data ++ filesChars cd.files
    ++ ",\"parent\":".data ++ parentChars cd.parent
    ++ ",\"username\":".data ++ jstrChars cd.username ++ "\x7d".data

/-- The serialized commit record as a string. -/
def stringifyCommit (cd : CommitData) : String := String.mk (commitChars cd)

/-! ### The operations of the class `AriGit` -/

/-- Operation `AriGit.updateStagingArea(filePath, fileHash)` (lines 47–55): parse the
index file, push `{path, hash}`, write it back.  A failing read/parse is
caught inside this method: the state is returned unchanged. -/
def updateStagingArea (filePath fileHash : String) (st : RepoState) : RepoState :=
  match st.indexFile with
  | none => st
  | some index =>
    { st with indexFile := some (index ++ [{ path := filePath, hash := fileHash }]) }

/-- Operation `AriGit.add(fileToBeAdded)` (lines 33–45): read the working file (a failed
read is caught before any write), store its content under its hash in
`objects/`, then update the staging area. -/
def add (working : List (String × String)) (fileToBeAdded : String)
    (st : RepoState) : RepoState :=
  match readWorkingFile working fileToBeAdded with
  | none => st
  | some fileData =>
    updateStagingArea fileToBeAdded (hashObject fileData)
      { st with objects := (hashObject fileData, fileData) :: st.objects }

/-- Operation `AriGit.getCurrentHead()` (lines 57–64): the content of `HEAD`, or `null`
(`none`) when the read fails — the error is caught *inside* this method. -/
def getCurrentHead (st : RepoState) : Option String := st.headFile

/-- The JS coercion `parentCommit || null` (line 75): both `null` and the empty
string are falsy, so an empty `HEAD` yields `null`. -/
def jsOrNull : Option String → Option String
  | none => none
  | some s => if s = "" then none else some s

/-- The commit record `commitData` built by `AriGit.commit` (lines 71–77):
current index as `files`, `getCurrentHead() || null` as `parent`. -/
def newCommitData (message timeStamp username : String) (st : RepoState)
    (index : List StagingEntry) : CommitData :=
  { timeStamp := timeStamp, message := message, files := index,
    parent := jsOrNull (getCurrentHead st), username := username }

/-- The digest of the serialized commit record (line 79). -/
def newCommitHash (message timeStamp username : String) (st : RepoState)
    (index : List StagingEntry) : String :=
  hashObject (stringifyCommit (newCommitData message timeStamp username st index))

/-- Operation `AriGit.commit(message)` (lines 66–90): parse the index file (a failing
read/parse throws to the catch — nothing is written), build the commit record,
write it under its digest, point `HEAD` at the digest, write an empty index.
`timeStamp` (`new Date().toISOString()`) and `username`
(`process.env.USERNAME || 'anonymous'`) are ambient inputs of the invocation. -/
def commit (message timeStamp username : String) (st : RepoState) : RepoState :=
  match st.indexFile with
  | none => st
  | some index =>
    { objects := (newCommitHash message timeStamp username st index,
                  stringifyCommit (newCommitData message timeStamp username st index))
                   :: st.objects,
      headFile := some (newCommitHash message timeStamp username st index),
      indexFile := some [] }

/-- Operation `AriGit.getFileContent(fileHash)` (lines 116–119): raw read of
`objects/<fileHash>`. -/
def getFileContent (objects : List (String × String)) (fileHash : String) :
    Option String :=
  storeGet objects fileHash

/-- Operation `AriGit.getParentFileContent(parentCommitData, filePath)` (lines 121–126):
`parentCommitData.files.find(file => file.path === filePath)` — JS
`Array.prototype.find` returns the *first* matching entry — then loads that
entry's blob; `undefined` (`none`) when no entry matches. -/
def getParentFileContent (objects : List (String × String))
    (parentCommitData : CommitData) (filePath : String) : Option String :=
  match parentCommitData.files.find? (fun file => file.path == filePath) with
  | some parentFile => getFileContent objects parentFile.hash
  | none => none

/-- The state written by `AriGit.init()` on an empty directory (lines 18–27):
empty `objects/`, empty `HEAD`, index file `[]`. -/
def initState : RepoState :=
  { objects := [], headFile := some "", indexFile := some [] }

/-! ### Refined index-file model for `commit`

`JSON.parse` of the index bytes (line 68) has three distinct outcomes, not
two: it can throw (unreadable file or invalid JSON — `commit` reaches the
catch before any write), it can yield an entry sequence, or it can yield a
JSON value that is *not* an entry sequence (e.g. `\x7b\x7d`, `"x"`, `5`).
In the last case `commit` does not validate the value: it embeds it as
`files` in the commit record and completes every write.  The refinement below
keeps all three cases apart; `RepoState.indexFile` above abstracts it by
mapping `entries l` to `some l` and both failure-free-read-impossible cases
to `none`, which is exact for `updateStagingArea` (where `index.push` throws
on a non-array and the catch leaves the index unwritten, just as a parse
throw does) but not for `commit`. -/

/-- Outcome of `JSON.parse` on the persisted staging-index bytes.
A successfully parsed value that is not an entry sequence is represented by
its `JSON.stringify` image: the only use `commit` makes of the value is to
re-serialize it inside the commit record (lines 74, 79, 82). -/
inductive IndexParse where
  | throws : IndexParse
  | entries : List StagingEntry → IndexParse
  | otherJson : List Char → IndexParse
deriving DecidableEq, Repr

/-- Repository state with the refined index-file model. -/
structure RepoStateRaw where
  objects : List (String × String)
  headFile : Option String
  indexParse : IndexParse
deriving DecidableEq, Repr

/-- Serialization `JSON.stringify(commitData)` with an arbitrary JSON `files`
value spliced in (given by its own serialization `filesJson`); same record
shape and key order as `commitChars`. -/
def commitCharsWith (timeStamp message : String) (filesJson : List Char)
    (parent : Option String) (username : String) : List Char :=
  "\x7b\"timeStamp\":".data ++ jstrChars timeStamp
    ++ ",\"message\":".data ++ jstrChars message
    ++ ",\"files\":".data ++ filesJson
    ++ ",\"parent\":".data ++ parentChars parent
    ++ ",\"username\":".data ++ jstrChars username ++ "\x7d".data

/-- The serialized commit record `commit` builds over the refined state:
message, timestamp, the (already serialized) `files` value, `parent` from
`getCurrentHead() || null`, username. -/
def commitRawRecord (message timeStamp username : String) (st : RepoStateRaw)
    (filesJson : List Char) : String :=
  String.mk (commitCharsWith timeStamp message filesJson (jsOrNull st.headFile) username)

/-- Operation `AriGit.commit(message)` (lines 66–90) over the refined
index-file model: a throwing `JSON.parse` (the first statement of the try)
reaches the catch before any write; any successfully parsed value — an entry
sequence or any other JSON value — is embedded as `files` without validation,
and the record is stored under its digest, Head is moved to the digest, and
`[]` is written to the index. -/
def commitRaw (message timeStamp username : String) (st : RepoStateRaw) : RepoStateRaw :=
  match st.indexParse with
  | IndexParse.throws => st
  | IndexParse.entries index =>
    { objects := (hashObject (commitRawRecord message timeStamp username st (filesChars index)),
                  commitRawRecord message timeStamp username st (filesChars index)) :: st.objects,
      headFile := some (hashObject (commitRawRecord message timeStamp username st (filesChars index))),
      indexParse := IndexParse.entries [] }
  | IndexParse.otherJson json =>
    { objects := (hashObject (commitRawRecord message timeStamp username st json),
                  commitRawRecord message timeStamp username st json) :: st.objects,
      headFile := some (hashObject (commitRawRecord message timeStamp username st json)),
      indexParse := IndexParse.entries [] }

/-- Abstraction from the refined state to `RepoState`: an entry sequence is a
decoded index, both other parse outcomes collapse to `none`. -/
def toAbstract (st : RepoStateRaw) : RepoState :=
  { objects := st.objects, headFile := st.headFile,
    indexFile := match st.indexParse with
                 | IndexParse.entries l => some l
                 | _ => none }

/-- Concrete repository whose index file holds `\x7b\x7d` — valid JSON that is
not an entry sequence. -/
def garbageIndexState : RepoStateRaw :=
  { objects := [], headFile := some "",
    indexParse := IndexParse.otherJson "\x7b\x7d".data }

/-! ### `JSON.parse` of a stored commit record

`AriGit.log` and `AriGit.showCommitDiff` read commit records back with
`JSON.parse`.  The program only ever writes commit records through
`stringifyCommit`, so the embedded reader accepts exactly that serialization
format; `parseCommit (stringifyCommit cd) = some cd` is proved below. -/

/-- Value of a (lower-case) hex digit character. -/
def hexVal (c : Char) : Option Nat :=
  if 48 ≤ c.toNat ∧ c.toNat ≤ 57 then some (c.toNat - 48)
  else if 97 ≤ c.toNat ∧ c.toNat ≤ 102 then some (c.toNat - 87)
  else none

/-- Consumes an expected literal character sequence, returning the rest. -/
def dropLit : List Char → List Char → Option (List Char)
  | [], input => some input
  | _ :: _, [] => none
  | p :: ps, c :: cs => if c = p then dropLit ps cs else none

/-- Body of a JSON string literal up to the closing quote; `acc` holds the
decoded characters in reverse. -/
def parseJStrAux : List Char → List Char → Option (String × List Char)
  | _, [] => none
  | acc, c :: rest =>
    if c = '"' then some (String.mk acc.reverse, rest)
    else if c = '\\' then
      match rest with
      | [] => none
      | e :: rest2 =>
        if e = '"' then parseJStrAux ('"' :: acc) rest2
        else if e = '\\' then parseJStrAux ('\\' :: acc) rest2
        else if e = 'n' then parseJStrAux ('\n' :: acc) rest2
        else if e = 'r' then parseJStrAux ('\r' :: acc) rest2
        else if e = 't' then parseJStrAux ('\t' :: acc) rest2
        else if e = 'b' then parseJStrAux (Char.ofNat 8 :: acc) rest2
        else if e = 'f' then parseJStrAux (Char.ofNat 12 :: acc) rest2
        else if e = 'u' then
          match rest2 with
          | h1 :: h2 :: h3 :: h4 :: rest3 =>
            match hexVal h1, hexVal h2, hexVal h3, hexVal h4 with
            | some v1, some v2, some v3, some v4 =>
              parseJStrAux (Char.ofNat (((v1 * 16 + v2) * 16 + v3) * 16 + v4) :: acc) rest3
            | _, _, _, _ => none
          | _ => none
        else none
    else parseJStrAux (c :: acc) rest

/-- A JSON string literal: opening quote, escaped body, closing quote. -/
def parseJStr : List Char → Option (String × List Char)
  | '"' :: rest => parseJStrAux [] rest
  | _ => none

/-- One `{"path":…,"hash":…}` staging entry. -/
def parseEntry (input : List Char) : Option (StagingEntry × List Char) :=
  match dropLit "\x7b\"path\":".data input with
  | none => none
  | some r1 =>
    match parseJStr r1 with
    | none => none
    | some (p, r2) =>
      match dropLit ",\"hash\":".data r2 with
      | none => none
      | some r3 =>
        match parseJStr r3 with
        | none => none
        | some (h, r4) =>
          match dropLit "\x7d".data r4 with
          | none => none
          | some r5 => some ({ path := p, hash := h }, r5)

/-- Entries after the first one: `,` entry … `]`.  `fuel` bounds the recursion
and is instantiated with the input length (each entry consumes at least its
leading comma). -/
def parseEntriesTail : Nat → List Char → Option (List StagingEntry × List Char)
  | _, [] => none
  | fuel, c :: rest =>
    if c = ']' then some ([], rest)
    else if c = ',' then
      match fuel with
      | 0 => none
      | fuel + 1 =>
        match parseEntry rest with
        | none => none
        | some (e, rest2) =>
          match parseEntriesTail fuel rest2 with
          | none => none
          | some (es, rest3) => some (e :: es, rest3)
    else none

/-- A JSON array of staging entries. -/
def parseFiles (input : List Char) : Option (List StagingEntry × List Char) :=
  match input with
  | '[' :: rest =>
    match rest with
    | [] => none
    | c :: rest2 =>
      if c = ']' then some ([], rest2)
      else
        match parseEntry (c :: rest2) with
        | none => none
        | some (e, rest3) =>
          match parseEntriesTail rest3.length rest3 with
          | none => none
          | some (es, rest4) => some (e :: es, rest4)
  | _ => none

/-- The `parent` field: `null` or a string digest. -/
def parseParent (input : List Char) : Option (Option String × List Char) :=
  match dropLit "null".data input with
  | some rest => some (none, rest)
  | none =>
    match parseJStr input with
    | some (p, rest) => some (some p, rest)
    | none => none

/-- Deserialization `JSON.parse` of a stored commit record (serialization format of
`stringifyCommit`, the only commit format the program writes). -/
def parseCommit (s : String) : Option CommitData :=
  match dropLit "\x7b\"timeStamp\":".data s.data with
  | none => none
  | some r1 =>
    match parseJStr r1 with
    | none => none
    | some (ts, r2) =>
      match dropLit ",\"message\":".data r2 with
      | none => none
      | some r3 =>
        match parseJStr r3 with
        | none => none
        | some (msg, r4) =>
          match dropLit ",\"files\":".data r4 with
          | none => none
          | some r5 =>
            match parseFiles r5 with
            | none => none
            | some (fs, r6) =>
              match dropLit ",\"parent\":".data r6 with
              | none => none
              | some r7 =>
                match parseParent r7 with
                | none => none
                | some (par, r8) =>
                  match dropLit ",\"username\":".data r8 with
                  | none => none
                  | some r9 =>
                    match parseJStr r9 with
                    | none => none
                    | some (user, r10) =>
                      if r10 = "\x7d".data then
                        some { timeStamp := ts, message := msg, files := fs,
                               parent := par, username := user }
                      else none

/-! ### `AriGit.log` (lines 92–104) -/

/-- The `while (currentCommitHash)` loop of `AriGit.log`: load the object at
the current digest, parse it, record the digest with its metadata, advance to
`parent`; the loop condition is JS truthiness, so both `null` and the empty
string stop it.  `none` models an invocation that errors out mid-walk (missing
or corrupt object) or does not terminate within `fuel` iterations (a cyclic
parent chain would loop forever in the source). -/
def logLoop (objects : List (String × String)) :
    Nat → Option String → Option (List (String × CommitData))
  | _, none => some []
  | 0, some h => if h = "" then some [] else none
  | fuel + 1, some h =>
    if h = "" then some []
    else
      match storeGet objects h with
      | none => none
      | some s =>
        match parseCommit s with
        | none => none
        | some cd =>
          match logLoop objects fuel cd.parent with
          | none => none
          | some rest => some ((h, cd) :: rest)

/-- Operation `AriGit.log()`: start the walk at `getCurrentHead()`; a failing `HEAD`
read yields `null` and hence an empty log. -/
def log (st : RepoState) (fuel : Nat) : Option (List (String × CommitData)) :=
  match getCurrentHead st with
  | none => some []
  | some h => logLoop st.objects fuel (some h)

/-- Checks one chain link: the object stored under digest `h` decodes to the
commit record `cd`. -/
def entryOk (objects : List (String × String)) (h : String) (cd : CommitData) : Bool :=
  match storeGet objects h with
  | none => false
  | some s => decide (parseCommit s = some cd)

/-- Predicate `chainOk objects cur l`: `l` is exactly the commit chain reachable from
the cursor `cur` by following `parent` pointers, newest first, ending at the
first `null` (or empty, which JS treats the same) parent. -/
def chainOk (objects : List (String × String)) :
    Option String → List (String × CommitData) → Bool
  | none, l => l.isEmpty
  | some h, l =>
    if h = "" then l.isEmpty
    else
      match l with
      | [] => false
      | (h', cd) :: rest =>
        decide (h' = h) && entryOk objects h cd && chainOk objects cd.parent rest

/-! ### Diff Engine (spec §4.4)

`AriGit.showCommitDiff` calls `diffLines` of the external `diff` npm package,
whose code is not under src/.  The spec (§4.4, §9) defines the intended
algorithm — an LCS-based line diff — and directs implementers to treat it as
such; the model below follows the spec's words. -/

/-- Modelled from the spec: classification of one diff segment, §4.4
"`{kind: Unchanged | Added | Removed, text}`".  The source's `diff` library
(not under src/) marks segments with `added` / `removed` flags instead. -/
inductive SegKind where
  | unchanged : SegKind
  | added : SegKind
  | removed : SegKind
deriving DecidableEq, Repr

/-- Modelled from the spec: one segment of a line diff (§4.4). -/
structure Segment where
  kind : SegKind
  value : String
deriving DecidableEq, Repr

/-- Splits a character sequence into lines, each keeping its terminating
newline (so the lines concatenate back to the original text); `acc` holds the
current line in reverse. -/
def splitKeep : List Char → List Char → List (List Char)
  | acc, [] => if acc.isEmpty then [] else [acc.reverse]
  | acc, c :: cs =>
    if c = '\n' then (acc.reverse ++ ['\n']) :: splitKeep [] cs
    else splitKeep (c :: acc) cs

/-- The lines of a text, newline terminators kept. -/
def linesOf (s : String) : List String := (splitKeep [] s.data).map String.mk

/-- Concatenation of a list of character lists. -/
def joinAll : List (List Char) → List Char
  | [] => []
  | l :: ls => l ++ joinAll ls

/-- Modelled from the spec: a longest common subsequence of two line lists
(§4.4, glossary).  `fuel` bounds the recursion and is instantiated with the
total length of the two inputs. -/
def lcsAux : Nat → List String → List String → List String
  | 0, _, _ => []
  | _, [], _ => []
  | _ + 1, _ :: _, [] => []
  | fuel + 1, a :: as, b :: bs =>
    if a = b then a :: lcsAux fuel as bs
    else
      let x := lcsAux fuel (a :: as) bs
      let y := lcsAux fuel as (b :: bs)
      if y.length ≤ x.length then x else y

/-- Longest common subsequence of two line lists. -/
def lcs (xs ys : List String) : List String := lcsAux (xs.length + ys.length) xs ys

/-- Splits a list at the first occurrence of `x`: the elements before it and
the elements after it. -/
def takeUntil (x : String) : List String → List String × List String
  | [] => ([], [])
  | y :: ys =>
    if y = x then ([], ys)
    else
      match takeUntil x ys with
      | (before, after) => (y :: before, after)

/-- Modelled from the spec (§4.4): walk the common subsequence through both
texts; unmatched old lines become `removed` runs, unmatched new lines `added`
runs (removed before added at the same gap), matched lines `unchanged`. -/
def diffCore : List String → List String → List String → List (SegKind × List String)
  | [], olds, news =>
    (if olds.isEmpty then [] else [(SegKind.removed, olds)])
      ++ (if news.isEmpty then [] else [(SegKind.added, news)])
  | c :: cs, olds, news =>
    match takeUntil c olds, takeUntil c news with
    | (ro, olds2), (rn, news2) =>
      (if ro.isEmpty then [] else [(SegKind.removed, ro)])
        ++ (if rn.isEmpty then [] else [(SegKind.added, rn)])
        ++ (SegKind.unchanged, [c]) :: diffCore cs olds2 news2

/-- Merges adjacent runs of the same kind; `(k, v)` is the run being built. -/
def coalesceAux (k : SegKind) (v : List String) :
    List (SegKind × List String) → List (SegKind × List String)
  | [] => [(k, v)]
  | (k2, v2) :: rest =>
    if k = k2 then coalesceAux k (v ++ v2) rest
    else (k, v) :: coalesceAux k2 v2 rest

/-- Maximal same-kind runs (§4.4 "maximal runs of matched … and unmatched lines"). -/
def coalesce : List (SegKind × List String) → List (SegKind × List String)
  | [] => []
  | (k, v) :: rest => coalesceAux k v rest

/-- Modelled from the spec (§4.4): `diffLines(oldText, newText)` — the ordered
segment list of the LCS-based line diff of the two texts. -/
def diffLines (oldText newText : String) : List Segment :=
  (coalesce (diffCore (lcs (linesOf oldText) (linesOf newText))
      (linesOf oldText) (linesOf newText))).map
    (fun kv => { kind := kv.1, value := String.join kv.2 })

/-- A lower-case hexadecimal digit character (`0`–`9`, `a`–`f`). -/
def isHexLower (c : Char) : Bool :=
  (48 ≤ c.toNat && c.toNat ≤ 57) || (97 ≤ c.toNat && c.toNat ≤ 102)

/-- Concrete commit record used to exercise the `log` theorem. -/
def demoCommit : CommitData :=
  { timeStamp := "t", message := "m", files := [], parent := none, username := "u" }

/-- Concrete one-commit repository used to exercise the `log` theorem. -/
def demoState : RepoState :=
  { objects := [("d0d0", stringifyCommit demoCommit)],
    headFile := some "d0d0", indexFile := some [] }

/-! ## Theorems -/

/-! ### Digest shape -/

theorem toHex8_length (w : Nat) : (toHex8 w).length = 8 := rfl

theorem sha1HexChars_length (msg : List Nat) : (sha1HexChars msg).length = 40 := by
  rcases h : sha1Final msg with ⟨a, b, c, d, e⟩
  simp [sha1HexChars, h, toHex8_length]

theorem hashObject_length (c : String) : (hashObject c).length = 40 := by
  show (String.mk (sha1HexChars (utf8Bytes c.data))).length = 40
  show (sha1HexChars (utf8Bytes c.data)).length = 40
  exact sha1HexChars_length _

theorem hashObject_ne_empty (c : String) : hashObject c ≠ "" := by
  intro h
  have := hashObject_length c
  rw [h] at this
  simp [String.length] at this

theorem hexDigit_isHexLower : ∀ n, n < 16 → isHexLower (hexDigit n) = true := by decide

theorem mem_toHex8_isHexLower (w : Nat) : ∀ ch ∈ toHex8 w, isHexLower ch = true := by
  intro ch hch
  simp only [toHex8, List.mem_cons, List.not_mem_nil, or_false] at hch
  rcases hch with h | h | h | h | h | h | h | h <;>
    (subst h; exact hexDigit_isHexLower _ (Nat.mod_lt _ (by norm_num)))

theorem mem_sha1HexChars_isHexLower (msg : List Nat) :
    ∀ ch ∈ sha1HexChars msg, isHexLower ch = true := by
  intro ch hch
  rcases h : sha1Final msg with ⟨a, b, c, d, e⟩
  rw [sha1HexChars, h] at hch
  simp only [List.mem_append] at hch
  rcases hch with ((((h1 | h1) | h1) | h1) | h1) <;> exact mem_toHex8_isHexLower _ _ h1

theorem mem_hashObject_isHexLower (c : String) :
    ∀ ch ∈ (hashObject c).data, isHexLower ch = true :=
  mem_sha1HexChars_isHexLower _

/-! ### Operations: basic state equations -/

theorem updateStagingArea_objects (p h : String) (st : RepoState) :
    (updateStagingArea p h st).objects = st.objects := by
  cases hidx : st.indexFile <;> simp [updateStagingArea, hidx]

theorem updateStagingArea_headFile (p h : String) (st : RepoState) :
    (updateStagingArea p h st).headFile = st.headFile := by
  cases hidx : st.indexFile <;> simp [updateStagingArea, hidx]

/-- C1: for every byte content `c`, after `add` stores `c` (`put`), retrieving
the object under `hash(c)` (`get`) returns exactly `c`; and the digest is a
deterministic 160-bit hex digest of the raw bytes — `hashObject` is a pure
function (determinism is definitional), its output has exactly 40 lower-case
hexadecimal characters (160 bits hex-encoded). -/
theorem add_stores_content_under_hash (working : List (String × String))
    (p c : String) (st : RepoState)
    (hr : readWorkingFile working p = some c) :
    storeGet (add working p st).objects (hashObject c) = some c
      ∧ (hashObject c).length = 40
      ∧ ∀ ch ∈ (hashObject c).data, isHexLower ch = true := by
  refine ⟨?_, hashObject_length c, mem_hashObject_isHexLower c⟩
  rw [add, hr]
  rw [updateStagingArea_objects]
  simp [storeGet]

theorem add_stores_content_under_hash_witness :
    storeGet (add [("a.txt", "hello")] "a.txt" initState).objects
        (hashObject "hello") = some "hello"
      ∧ (hashObject "hello").length = 40
      ∧ ∀ ch ∈ (hashObject "hello").data, isHexLower ch = true :=
  add_stores_content_under_hash [("a.txt", "hello")] "a.txt" "hello" initState rfl

/-- C5: staging a `(path, hash)` pair appends exactly one entry at the end of
the persisted sequence and changes nothing else; there is no deduplication by
path — the equation holds for every prior index `idx`, in particular when
`idx` already contains an entry for the same path, in which case the new entry
is appended after it rather than replacing it. -/
theorem updateStagingArea_appends (p h : String) (st : RepoState)
    (idx : List StagingEntry) (hidx : st.indexFile = some idx) :
    updateStagingArea p h st
      = { st with indexFile := some (idx ++ [{ path := p, hash := h }]) } := by
  simp [updateStagingArea, hidx]

theorem updateStagingArea_appends_witness :
    updateStagingArea "a.txt" "h2"
        { objects := [], headFile := some "",
          indexFile := some [{ path := "a.txt", hash := "h1" }] }
      = { objects := [], headFile := some "",
          indexFile := some [{ path := "a.txt", hash := "h1" },
                             { path := "a.txt", hash := "h2" }] } :=
  updateStagingArea_appends "a.txt" "h2" _ [{ path := "a.txt", hash := "h1" }] rfl

/-- C9: `add` on a source path whose file read fails leaves the entire
repository state unchanged — the read is the first step of `add` and its
failure jumps to the catch before any write. -/
theorem add_read_failure (working : List (String × String)) (p : String)
    (st : RepoState) (hr : readWorkingFile working p = none) :
    add working p st = st := by
  rw [add, hr]

theorem add_read_failure_witness :
    add [] "missing.txt" initState = initState :=
  add_read_failure [] "missing.txt" initState rfl

/-! ### Commit on the refined index-file model -/

theorem commitChars_eq_with (cd : CommitData) :
    commitChars cd
      = commitCharsWith cd.timeStamp cd.message (filesChars cd.files)
          cd.parent cd.username := rfl

/-- On an index that decodes to an entry sequence, the refined `commitRaw`
is exactly the abstract `commit` through `toAbstract`. -/
theorem commitRaw_refines_commit_entries (m t u : String) (st : RepoStateRaw)
    (l : List StagingEntry) (h : st.indexParse = IndexParse.entries l) :
    toAbstract (commitRaw m t u st) = commit m t u (toAbstract st) := by
  rcases st with ⟨objs, hd, ip⟩
  subst h
  rfl

/-- On an index whose parse throws, both models leave the state unchanged. -/
theorem commitRaw_refines_commit_throws (m t u : String) (st : RepoStateRaw)
    (h : st.indexParse = IndexParse.throws) :
    toAbstract (commitRaw m t u st) = commit m t u (toAbstract st) := by
  rcases st with ⟨objs, hd, ip⟩
  subst h
  rfl

/-- C10 counterexample: the index bytes `\x7b\x7d` are valid JSON but do not
decode as a valid entry sequence, yet `commit` does not abort before any
write: `JSON.parse` succeeds (only a throw reaches the catch), so the record
is built with the non-sequence value as `files`, an object is stored, Head
moves to the record's digest, and the index file is overwritten with `[]`. -/
theorem commit_nonsequence_counterexample :
    (commitRaw "m" "t" "u" garbageIndexState).objects.length = 1
      ∧ (commitRaw "m" "t" "u" garbageIndexState).headFile ≠ garbageIndexState.headFile
      ∧ (commitRaw "m" "t" "u" garbageIndexState).indexParse = IndexParse.entries []
      ∧ commitRaw "m" "t" "u" garbageIndexState ≠ garbageIndexState := by
  have hne : hashObject (commitRawRecord "m" "t" "u" garbageIndexState "\x7b\x7d".data)
      ≠ "" := hashObject_ne_empty _
  have hhead : (commitRaw "m" "t" "u" garbageIndexState).headFile
      = some (hashObject (commitRawRecord "m" "t" "u" garbageIndexState "\x7b\x7d".data)) :=
    rfl
  refine ⟨rfl, ?_, rfl, ?_⟩
  · intro h
    rw [hhead, show garbageIndexState.headFile = some "" from rfl] at h
    exact hne (Option.some.inj h)
  · intro h
    have h2 := congrArg RepoStateRaw.headFile h
    rw [hhead, show garbageIndexState.headFile = some "" from rfl] at h2
    exact hne (Option.some.inj h2)

/-- C10 amended: `commit` aborts before any write exactly when `JSON.parse`
of the persisted staging-index bytes throws (unreadable bytes or invalid
JSON): then no object is stored and Head and the index file are unchanged.
When the bytes decode to a JSON value that is not an entry sequence, `commit`
does not abort: it embeds that value as the record's `files`, stores the
serialized record under its digest, moves Head to the digest, and resets the
index to the empty sequence. -/
theorem commit_index_decode (m t u : String) :
    (∀ st : RepoStateRaw, st.indexParse = IndexParse.throws →
        commitRaw m t u st = st)
      ∧ (∀ (st : RepoStateRaw) (json : List Char),
          st.indexParse = IndexParse.otherJson json →
          commitRaw m t u st
            = { objects := (hashObject (commitRawRecord m t u st json),
                            commitRawRecord m t u st json) :: st.objects,
                headFile := some (hashObject (commitRawRecord m t u st json)),
                indexParse := IndexParse.entries [] }) := by
  constructor
  · intro st h
    simp only [commitRaw, h]
  · intro st json h
    simp only [commitRaw, h]

theorem commit_index_decode_witness :
    commitRaw "m" "t" "u"
        { objects := [], headFile := some "", indexParse := IndexParse.throws }
      = { objects := [], headFile := some "", indexParse := IndexParse.throws }
      ∧ commitRaw "m" "t" "u" garbageIndexState
        = { objects := [(hashObject (commitRawRecord "m" "t" "u" garbageIndexState
                           "\x7b\x7d".data),
                         commitRawRecord "m" "t" "u" garbageIndexState "\x7b\x7d".data)],
            headFile := some (hashObject (commitRawRecord "m" "t" "u" garbageIndexState
                "\x7b\x7d".data)),
            indexParse := IndexParse.entries [] } :=
  ⟨(commit_index_decode "m" "t" "u").1 _ rfl,
   (commit_index_decode "m" "t" "u").2 garbageIndexState "\x7b\x7d".data rfl⟩

/-- C2: a successful commit builds a record whose `parent` is the current
Head digest (`null` when Head is empty, via the JS coercion `|| null`) and
whose `files` equal the prior index, stores the serialized record under its
digest, points Head at that digest, and resets the index to the empty
sequence. -/
theorem commit_spec (m t u h : String) (idx : List StagingEntry) (st : RepoState)
    (hh : st.headFile = some h) (hidx : st.indexFile = some idx) :
    newCommitData m t u st idx
        = { timeStamp := t, message := m, files := idx,
            parent := if h = "" then none else some h, username := u }
      ∧ commit m t u st
        = { objects := (newCommitHash m t u st idx,
                        stringifyCommit (newCommitData m t u st idx)) :: st.objects,
            headFile := some (newCommitHash m t u st idx),
            indexFile := some [] }
      ∧ storeGet (commit m t u st).objects (newCommitHash m t u st idx)
        = some (stringifyCommit (newCommitData m t u st idx)) := by
  refine ⟨?_, ?_, ?_⟩
  · simp [newCommitData, getCurrentHead, hh, jsOrNull]
  · rw [commit, hidx]
  · rw [commit, hidx]
    simp [storeGet]

theorem commit_spec_witness :
    newCommitData "first" "t0" "u0" initState []
        = { timeStamp := "t0", message := "first", files := [],
            parent := if "" = "" then none else some "", username := "u0" }
      ∧ commit "first" "t0" "u0" initState
        = { objects := [(newCommitHash "first" "t0" "u0" initState [],
                         stringifyCommit (newCommitData "first" "t0" "u0" initState []))],
            headFile := some (newCommitHash "first" "t0" "u0" initState []),
            indexFile := some [] }
      ∧ storeGet (commit "first" "t0" "u0" initState).objects
            (newCommitHash "first" "t0" "u0" initState [])
        = some (stringifyCommit (newCommitData "first" "t0" "u0" initState [])) :=
  commit_spec "first" "t0" "u0" "" [] initState rfl rfl

/-- C3: `commit` invoked with an empty staging index succeeds and produces a
commit record with `files = []` (no emptiness check anywhere in lines 66–90). -/
theorem commit_empty_index (m t u : String) (st : RepoState)
    (hidx : st.indexFile = some []) :
    (newCommitData m t u st []).files = []
      ∧ commit m t u st
        = { objects := (newCommitHash m t u st [],
                        stringifyCommit (newCommitData m t u st [])) :: st.objects,
            headFile := some (newCommitHash m t u st []),
            indexFile := some [] } :=
  ⟨rfl, by rw [commit, hidx]⟩

theorem commit_empty_index_witness :
    (newCommitData "empty" "t0" "u0" initState []).files = []
      ∧ commit "empty" "t0" "u0" initState
        = { objects := [(newCommitHash "empty" "t0" "u0" initState [],
                         stringifyCommit (newCommitData "empty" "t0" "u0" initState []))],
            headFile := some (newCommitHash "empty" "t0" "u0" initState []),
            indexFile := some [] } :=
  commit_empty_index "empty" "t0" "u0" initState rfl

/-- C8 counterexample: in a state where reading `HEAD` fails (`headFile =
none`) but the index decodes, `commit` does NOT abort — it creates a commit
record and moves Head, because `getCurrentHead` catches the read error itself
and returns `null`, which `commit` then treats as "no parent". -/
theorem commit_head_failure_counterexample :
    (commit "m" "t" "u"
        { objects := [], headFile := none, indexFile := some [] }).objects.length = 1
      ∧ (commit "m" "t" "u"
          { objects := [], headFile := none, indexFile := some [] }).headFile ≠ none
      ∧ (commit "m" "t" "u"
          { objects := [], headFile := none, indexFile := some [] }).indexFile
          = some [] := by
  refine ⟨rfl, ?_, rfl⟩
  rw [commit]
  simp

/-- C8 amended: when reading Head fails with an I/O error, `commit` reports
the failure (inside `getCurrentHead`) but does not abort: it proceeds exactly
as if no commit existed, building a record with `parent = null`, storing it
under its digest, pointing Head at the digest, and clearing the index. -/
theorem commit_head_read_failure (m t u : String) (st : RepoState)
    (idx : List StagingEntry) (hh : st.headFile = none)
    (hidx : st.indexFile = some idx) :
    (newCommitData m t u st idx).parent = none
      ∧ commit m t u st
        = { objects := (newCommitHash m t u st idx,
                        stringifyCommit (newCommitData m t u st idx)) :: st.objects,
            headFile := some (newCommitHash m t u st idx),
            indexFile := some [] } := by
  constructor
  · simp [newCommitData, getCurrentHead, hh, jsOrNull]
  · rw [commit, hidx]

theorem commit_head_read_failure_witness :
    (newCommitData "m" "t" "u"
        { objects := [], headFile := none, indexFile := some [] } []).parent = none
      ∧ commit "m" "t" "u" { objects := [], headFile := none, indexFile := some [] }
        = { objects := [(newCommitHash "m" "t" "u"
                           { objects := [], headFile := none, indexFile := some [] } [],
                         stringifyCommit (newCommitData "m" "t" "u"
                           { objects := [], headFile := none, indexFile := some [] } []))],
            headFile := some (newCommitHash "m" "t" "u"
                { objects := [], headFile := none, indexFile := some [] } []),
            indexFile := some [] } :=
  commit_head_read_failure "m" "t" "u" _ [] rfl rfl

/-! ### Parent lookup in `showCommitDiff` -/

theorem find?_first_match (p : String) (pre post : List StagingEntry)
    (e : StagingEntry) (he : e.path = p) (hpre : ∀ f ∈ pre, f.path ≠ p) :
    List.find? (fun f => f.path == p) (pre ++ e :: post) = some e := by
  induction pre with
  | nil =>
    simp only [List.nil_append]
    exact List.find?_cons_of_pos _ (by simp [he])
  | cons f fs ih =>
    rw [List.cons_append, List.find?_cons_of_neg]
    · exact ih fun g hg => hpre g (List.mem_cons_of_mem f hg)
    · simp [hpre f (List.mem_cons_self f fs)]

/-- C6 counterexample: a parent commit whose `files` contain two entries for
path `"a"`, with different blobs `"one"` (first) and `"two"` (last);
`getParentFileContent` returns the blob of the *first* matching entry
(`Array.prototype.find`), not the blob of the last matching entry as the
claim states. -/
theorem parent_lookup_last_counterexample :
    getParentFileContent [("h1", "one"), ("h2", "two")]
        { timeStamp := "t", message := "m",
          files := [{ path := "a", hash := "h1" }, { path := "a", hash := "h2" }],
          parent := none, username := "u" } "a" = some "one"
      ∧ (({ timeStamp := "t", message := "m",
            files := [{ path := "a", hash := "h1" }, { path := "a", hash := "h2" }],
            parent := none, username := "u" } : CommitData).files.filter
              (fun f => f.path == "a")).getLast?
          = some { path := "a", hash := "h2" }
      ∧ storeGet [("h1", "one"), ("h2", "two")] "h2" = some "two"
      ∧ (some "one" : Option String) ≠ some "two" := by
  refine ⟨rfl, rfl, rfl, by decide⟩

/-- C6 amended: when the parent commit's `files` sequence contains several
entries with a given path, `showCommit` computes the diff for that path
against the blob of the *first* matching entry in the parent's `files`
sequence (JS `Array.prototype.find` returns the first match). -/
theorem getParentFileContent_first_match (objects : List (String × String))
    (pre post : List StagingEntry) (e : StagingEntry) (t m u : String)
    (par : Option String) (p : String) (he : e.path = p)
    (hpre : ∀ f ∈ pre, f.path ≠ p) :
    getParentFileContent objects
        { timeStamp := t, message := m, files := pre ++ e :: post,
          parent := par, username := u } p
      = getFileContent objects e.hash := by
  rw [getParentFileContent]
  rw [show ({ timeStamp := t, message := m, files := pre ++ e :: post,
              parent := par, username := u } : CommitData).files
        = pre ++ e :: post from rfl]
  rw [find?_first_match p pre post e he hpre]

theorem getParentFileContent_first_match_witness :
    getParentFileContent [("h1", "one"), ("h2", "two")]
        { timeStamp := "t", message := "m",
          files := [{ path := "b", hash := "hb" }] ++
            { path := "a", hash := "h1" } :: [{ path := "a", hash := "h2" }],
          parent := none, username := "u" } "a"
      = getFileContent [("h1", "one"), ("h2", "two")] "h1" :=
  getParentFileContent_first_match [("h1", "one"), ("h2", "two")]
    [{ path := "b", hash := "hb" }] [{ path := "a", hash := "h2" }]
    { path := "a", hash := "h1" } "t" "m" "u" none "a" rfl (by decide)

/-! ### Diff Engine: self-diff -/

theorem lcsAux_self : ∀ (xs : List String) (fuel : Nat), xs.length ≤ fuel →
    lcsAux fuel xs xs = xs := by
  intro xs
  induction xs with
  | nil => intro fuel _; cases fuel <;> rfl
  | cons a as ih =>
    intro fuel hf
    cases fuel with
    | zero => simp at hf
    | succ f =>
      rw [lcsAux, ih f (by simpa using hf)]
      simp

theorem lcs_self (xs : List String) : lcs xs xs = xs :=
  lcsAux_self xs _ (by omega)

theorem takeUntil_cons_self (c : String) (cs : List String) :
    takeUntil c (c :: cs) = ([], cs) := by
  rw [takeUntil, if_pos rfl]

theorem diffCore_self : ∀ xs : List String,
    diffCore xs xs xs = xs.map (fun c => (SegKind.unchanged, [c])) := by
  intro xs
  induction xs with
  | nil => rfl
  | cons c cs ih =>
    rw [diffCore, takeUntil_cons_self]
    simp [ih]

theorem coalesceAux_unchanged : ∀ (cs : List String) (v : List String),
    coalesceAux SegKind.unchanged v (cs.map (fun c => (SegKind.unchanged, [c])))
      = [(SegKind.unchanged, v ++ cs)] := by
  intro cs
  induction cs with
  | nil => intro v; simp [coalesceAux]
  | cons c cs ih =>
    intro v
    rw [List.map_cons, coalesceAux, if_pos rfl, ih]
    simp

theorem joinAll_splitKeep : ∀ (cs acc : List Char),
    joinAll (splitKeep acc cs) = acc.reverse ++ cs := by
  intro cs
  induction cs with
  | nil =>
    intro acc
    cases acc <;> simp [splitKeep, joinAll]
  | cons c cs ih =>
    intro acc
    by_cases hc : c = '\n'
    · subst hc
      rw [splitKeep, if_pos rfl, joinAll, ih]
      simp
    · rw [splitKeep, if_neg hc, ih]
      simp

theorem foldl_append_mk : ∀ (ls : List (List Char)) (a : List Char),
    List.foldl (fun r s => r ++ s) (String.mk a) (ls.map String.mk)
      = String.mk (a ++ joinAll ls) := by
  intro ls
  induction ls with
  | nil => intro a; simp [joinAll]
  | cons l ls ih =>
    intro a
    rw [List.map_cons, List.foldl_cons]
    rw [show (String.mk a ++ String.mk l) = String.mk (a ++ l) from rfl, ih]
    simp [joinAll]

theorem join_map_mk (ls : List (List Char)) :
    String.join (ls.map String.mk) = String.mk (joinAll ls) := by
  rw [String.join]
  exact foldl_append_mk ls []

theorem join_linesOf (t : String) : String.join (linesOf t) = t := by
  rw [linesOf, join_map_mk, joinAll_splitKeep]
  rfl

/-- C7: for every text `t`, `diffLines(t, t)` yields only `Unchanged` segments,
and those segments together cover all of `t` (their values concatenate back to
`t`). -/
theorem diffLines_self (t : String) :
    (∀ seg ∈ diffLines t t, seg.kind = SegKind.unchanged)
      ∧ String.join ((diffLines t t).map Segment.value) = t := by
  have hself : diffLines t t
      = (coalesce ((linesOf t).map (fun c => (SegKind.unchanged, [c])))).map
          (fun kv => { kind := kv.1, value := String.join kv.2 }) := by
    rw [diffLines, lcs_self, diffCore_self]
  cases hl : linesOf t with
  | nil =>
    have ht : t = "" := by
      have := join_linesOf t
      rw [hl] at this
      exact this.symm
    rw [hself, hl]
    exact ⟨by simp [coalesce], by simp [coalesce, ht, String.join]⟩
  | cons l ls =>
    rw [hself, hl, List.map_cons, coalesce, coalesceAux_unchanged]
    constructor
    · intro seg hseg
      simp only [List.map_cons, List.map_nil, List.mem_singleton] at hseg
      rw [hseg]
    · simp only [List.map_cons, List.map_nil, List.nil_append, List.singleton_append]
      rw [show ∀ s : String, String.join [s] = s from fun s => rfl]
      rw [← hl, join_linesOf]

/-! ### Parser / serializer roundtrip -/

theorem dropLit_self : ∀ pat rest : List Char, dropLit pat (pat ++ rest) = some rest := by
  intro pat
  induction pat with
  | nil => intro rest; rfl
  | cons p ps ih =>
    intro rest
    rw [List.cons_append, dropLit, if_pos rfl, ih]

theorem hexVal_hexDigit : ∀ n, n < 16 → hexVal (hexDigit n) = some n := by decide

theorem escList_cons (c : Char) (cs : List Char) :
    escList (c :: cs) = jsonEscapeChar c ++ escList cs := rfl

theorem parseJStrAux_plain_step (c : Char) (acc X : List Char)
    (h1 : ¬c = '"') (h2 : ¬c = '\\') :
    parseJStrAux acc (c :: X) = parseJStrAux (c :: acc) X := by
  rw [parseJStrAux.eq_def]
  simp only [if_neg h1, if_neg h2]

theorem parseJStrAux_close_step (acc X : List Char) :
    parseJStrAux acc ('"' :: X) = some (String.mk acc.reverse, X) := by
  rw [parseJStrAux.eq_def]
  rfl

theorem parseJStrAux_esc_q (a X : List Char) :
    parseJStrAux a ('\\' :: '"' :: X) = parseJStrAux ('"' :: a) X := by
  rw [parseJStrAux.eq_def]
  rfl

theorem parseJStrAux_esc_bs (a X : List Char) :
    parseJStrAux a ('\\' :: '\\' :: X) = parseJStrAux ('\\' :: a) X := by
  rw [parseJStrAux.eq_def]
  rfl

theorem parseJStrAux_esc_n (a X : List Char) :
    parseJStrAux a ('\\' :: 'n' :: X) = parseJStrAux ('\n' :: a) X := by
  rw [parseJStrAux.eq_def]
  rfl

theorem parseJStrAux_esc_r (a X : List Char) :
    parseJStrAux a ('\\' :: 'r' :: X) = parseJStrAux ('\r' :: a) X := by
  rw [parseJStrAux.eq_def]
  rfl

theorem parseJStrAux_esc_t (a X : List Char) :
    parseJStrAux a ('\\' :: 't' :: X) = parseJStrAux ('\t' :: a) X := by
  rw [parseJStrAux.eq_def]
  rfl

theorem parseJStrAux_esc_b (a X : List Char) :
    parseJStrAux a ('\\' :: 'b' :: X) = parseJStrAux ('\x08' :: a) X := by
  rw [parseJStrAux.eq_def]
  rfl

theorem parseJStrAux_esc_f (a X : List Char) :
    parseJStrAux a ('\\' :: 'f' :: X) = parseJStrAux ('\x0c' :: a) X := by
  rw [parseJStrAux.eq_def]
  rfl

theorem parseJStrAux_u_step (acc : List Char) (d1 d2 : Char) (v1 v2 : Nat)
    (X : List Char) (h1 : hexVal d1 = some v1) (h2 : hexVal d2 = some v2) :
    parseJStrAux acc ('\\' :: 'u' :: '0' :: '0' :: d1 :: d2 :: X)
      = parseJStrAux (Char.ofNat (((0 * 16 + 0) * 16 + v1) * 16 + v2) :: acc) X := by
  rw [parseJStrAux.eq_def]
  show (match hexVal '0', hexVal '0', hexVal d1, hexVal d2 with
        | some v1, some v2, some v3, some v4 =>
          parseJStrAux (Char.ofNat (((v1 * 16 + v2) * 16 + v3) * 16 + v4) :: acc) X
        | _, _, _, _ => none) = _
  rw [show hexVal '0' = some 0 from rfl, h1, h2]

theorem parseJStrAux_escList : ∀ cs acc rest : List Char,
    parseJStrAux acc (escList cs ++ '"' :: rest)
      = some (String.mk (acc.reverse ++ cs), rest) := by
  intro cs
  induction cs with
  | nil =>
    intro acc rest
    rw [show escList [] ++ '"' :: rest = '"' :: rest from rfl]
    rw [parseJStrAux_close_step]
    simp
  | cons c cs ih =>
    intro acc rest
    rw [escList_cons, List.append_assoc]
    by_cases h1 : c = '"'
    · subst h1
      rw [show jsonEscapeChar '"' = ['\\', '"'] from rfl]
      simp only [List.cons_append, List.nil_append]
      rw [parseJStrAux_esc_q, ih]
      simp
    by_cases h2 : c = '\\'
    · subst h2
      rw [show jsonEscapeChar '\\' = ['\\', '\\'] from rfl]
      simp only [List.cons_append, List.nil_append]
      rw [parseJStrAux_esc_bs, ih]
      simp
    by_cases h3 : c = '\n'
    · subst h3
      rw [show jsonEscapeChar '\n' = ['\\', 'n'] from rfl]
      simp only [List.cons_append, List.nil_append]
      rw [parseJStrAux_esc_n, ih]
      simp
    by_cases h4 : c = '\r'
    · subst h4
      rw [show jsonEscapeChar '\r' = ['\\', 'r'] from rfl]
      simp only [List.cons_append, List.nil_append]
      rw [parseJStrAux_esc_r, ih]
      simp
    by_cases h5 : c = '\t'
    · subst h5
      rw [show jsonEscapeChar '\t' = ['\\', 't'] from rfl]
      simp only [List.cons_append, List.nil_append]
      rw [parseJStrAux_esc_t, ih]
      simp
    by_cases h6 : c.toNat = 8
    · have hc : c = '\x08' := by
        rw [← Char.ofNat_toNat c, h6]
      subst hc
      rw [show jsonEscapeChar '\x08' = ['\\', 'b'] from rfl]
      simp only [List.cons_append, List.nil_append]
      rw [parseJStrAux_esc_b, ih]
      simp
    by_cases h7 : c.toNat = 12
    · have hc : c = '\x0c' := by
        rw [← Char.ofNat_toNat c, h7]
      subst hc
      rw [show jsonEscapeChar '\x0c' = ['\\', 'f'] from rfl]
      simp only [List.cons_append, List.nil_append]
      rw [parseJStrAux_esc_f, ih]
      simp
    by_cases h8 : c.toNat < 32
    · rw [jsonEscapeChar, if_neg h1, if_neg h2, if_neg h3, if_neg h4, if_neg h5,
          if_neg h6, if_neg h7, if_pos h8]
      simp only [List.cons_append, List.nil_append]
      rw [parseJStrAux_u_step acc (hexDigit (c.toNat / 16)) (hexDigit (c.toNat % 16))
            (c.toNat / 16) (c.toNat % 16) _
            (hexVal_hexDigit _ (by omega)) (hexVal_hexDigit _ (Nat.mod_lt _ (by norm_num)))]
      rw [show ((0 * 16 + 0) * 16 + c.toNat / 16) * 16 + c.toNat % 16 = c.toNat from by omega]
      rw [Char.ofNat_toNat, ih]
      simp
    · rw [jsonEscapeChar, if_neg h1, if_neg h2, if_neg h3, if_neg h4, if_neg h5,
          if_neg h6, if_neg h7, if_neg h8]
      simp only [List.cons_append, List.nil_append]
      rw [parseJStrAux_plain_step c acc _ h1 h2, ih]
      simp

theorem parseJStr_rt (s : String) (rest : List Char) :
    parseJStr (jstrChars s ++ rest) = some (s, rest) := by
  rw [jstrChars]
  simp only [List.cons_append, List.append_assoc, List.singleton_append]
  rw [show ∀ Y, parseJStr ('"' :: Y) = parseJStrAux [] Y from fun Y => rfl]
  rw [parseJStrAux_escList]
  simp only [List.reverse_nil, List.nil_append]

theorem parseEntry_rt (e : StagingEntry) (rest : List Char) :
    parseEntry (entryChars e ++ rest) = some (e, rest) := by
  rw [entryChars]
  simp only [List.append_assoc]
  simp only [parseEntry, dropLit_self, parseJStr_rt]

theorem parseEntriesTail_comma_step (f : Nat) (X : List Char) :
    parseEntriesTail (f + 1) (',' :: X)
      = (match parseEntry X with
         | none => none
         | some (e, rest2) =>
           match parseEntriesTail f rest2 with
           | none => none
           | some (es, rest3) => some (e :: es, rest3)) := by
  rw [parseEntriesTail.eq_def]
  rfl

theorem parseEntriesTail_rt : ∀ (es : List StagingEntry) (rest : List Char) (fuel : Nat),
    es.length ≤ fuel →
    parseEntriesTail fuel (entriesTailChars es ++ ']' :: rest) = some (es, rest) := by
  intro es
  induction es with
  | nil =>
    intro rest fuel _
    rw [show entriesTailChars [] ++ ']' :: rest = ']' :: rest from rfl]
    rw [parseEntriesTail.eq_def]
    rfl
  | cons e es ih =>
    intro rest fuel hf
    cases fuel with
    | zero => simp at hf
    | succ f =>
      rw [show entriesTailChars (e :: es) ++ ']' :: rest
            = ',' :: (entryChars e ++ (entriesTailChars es ++ ']' :: rest)) from by
          rw [entriesTailChars]; simp [List.append_assoc]]
      rw [parseEntriesTail_comma_step]
      simp only [parseEntry_rt, ih rest f (by simpa using hf)]

theorem entryChars_head (e : StagingEntry) (X : List Char) :
    entryChars e ++ X
      = '\x7b' :: ("\"path\":".data ++ (jstrChars e.path ++ (",\"hash\":".data
          ++ (jstrChars e.hash ++ ("\x7d".data ++ X))))) := by
  rw [entryChars]
  rw [show "\x7b\"path\":".data = '\x7b' :: "\"path\":".data from rfl]
  simp only [List.cons_append, List.append_assoc]

theorem parseFiles_cons_step (c : Char) (Y : List Char) (hc : ¬c = ']') :
    parseFiles ('[' :: c :: Y)
      = (match parseEntry (c :: Y) with
         | none => none
         | some (e, rest3) =>
           match parseEntriesTail rest3.length rest3 with
           | none => none
           | some (es, rest4) => some (e :: es, rest4)) := by
  rw [parseFiles.eq_def]
  simp only [if_neg hc]

theorem entriesTailChars_length_ge (es : List StagingEntry) :
    es.length ≤ (entriesTailChars es).length := by
  induction es with
  | nil => simp [entriesTailChars]
  | cons e es ih =>
    rw [entriesTailChars]
    simp only [List.length_cons, List.cons_append, List.length_append]
    omega

theorem parseFiles_rt (l : List StagingEntry) (rest : List Char) :
    parseFiles (filesChars l ++ rest) = some (l, rest) := by
  cases l with
  | nil =>
    rw [show filesChars [] ++ rest = '[' :: ']' :: rest from rfl]
    rw [parseFiles.eq_def]
    rfl
  | cons e es =>
    rw [show filesChars (e :: es) ++ rest
          = '[' :: (entryChars e ++ (entriesTailChars es ++ ']' :: rest)) from by
        rw [filesChars]
        simp only [List.cons_append, List.append_assoc, List.singleton_append,
          List.nil_append]]
    rw [entryChars_head, parseFiles_cons_step _ _ (by decide), ← entryChars_head]
    simp only [parseEntry_rt]
    have hlen : es.length ≤ (entriesTailChars es ++ ']' :: rest).length := by
      have := entriesTailChars_length_ge es
      simp only [List.length_append]
      omega
    simp only [parseEntriesTail_rt es rest _ hlen]

theorem parseParent_rt (par : Option String) (rest : List Char) :
    parseParent (parentChars par ++ rest) = some (par, rest) := by
  cases par with
  | none =>
    rw [show parentChars none = "null".data from rfl]
    simp only [parseParent, dropLit_self]
  | some p =>
    rw [show parentChars (some p) = jstrChars p from rfl]
    have h : dropLit "null".data (jstrChars p ++ rest) = none := by
      rw [show jstrChars p ++ rest = '"' :: (escList p.data ++ ['"'] ++ rest) from by
          rw [jstrChars]; simp only [List.cons_append, List.append_assoc]]
      rw [show "null".data = 'n' :: "ull".data from rfl]
      rw [dropLit, if_neg (by decide)]
    simp only [parseParent, h, parseJStr_rt]

/-- The central roundtrip: `JSON.parse` recovers exactly the commit record
that `JSON.stringify` wrote. -/
theorem parseCommit_rt (cd : CommitData) :
    parseCommit (stringifyCommit cd) = some cd := by
  have hdata : (stringifyCommit cd).data = commitChars cd := rfl
  simp only [parseCommit, hdata, commitChars, List.append_assoc, dropLit_self,
    parseJStr_rt, parseFiles_rt, parseParent_rt]
  simp

/-! ### The `log` walk over a valid chain -/

theorem storeGet_cons (k v d : String) (objs : List (String × String)) :
    storeGet ((k, v) :: objs) d = if k = d then some v else storeGet objs d := rfl

theorem chainOk_prepend (objs : List (String × String)) (k v : String)
    (hk : storeGet objs k = none) :
    ∀ (l : List (String × CommitData)) (cur : Option String),
      chainOk objs cur l = true → chainOk ((k, v) :: objs) cur l = true := by
  intro l
  induction l with
  | nil =>
    intro cur h
    cases cur with
    | none => exact h
    | some hh =>
      rw [chainOk] at h ⊢
      exact h
  | cons hd l ih =>
    intro cur h
    rcases hd with ⟨h', cd⟩
    cases cur with
    | none => rw [chainOk] at h; simp at h
    | some hh =>
      rw [chainOk] at h ⊢
      by_cases hemp : hh = ""
      · rw [if_pos hemp] at h ⊢
        exact h
      · rw [if_neg hemp] at h ⊢
        simp only [Bool.and_eq_true, decide_eq_true_eq] at h ⊢
        obtain ⟨⟨hh', hent⟩, hrest⟩ := h
        refine ⟨⟨hh', ?_⟩, ih _ hrest⟩
        rw [entryOk] at hent ⊢
        cases hsg : storeGet objs hh with
        | none => rw [hsg] at hent; simp at hent
        | some s =>
          rw [hsg] at hent
          have hne : k ≠ hh := by
            intro he
            rw [he, hsg] at hk
            simp at hk
          rw [storeGet_cons, if_neg hne, hsg]
          exact hent

theorem logLoop_chain (objs : List (String × String)) :
    ∀ (l : List (String × CommitData)) (cur : Option String) (fuel : Nat),
      chainOk objs cur l = true → l.length ≤ fuel →
      logLoop objs fuel cur = some l := by
  intro l
  induction l with
  | nil =>
    intro cur fuel h _
    cases cur with
    | none => cases fuel <;> rfl
    | some hh =>
      have hh0 : hh = "" := by
        by_cases hemp : hh = ""
        · exact hemp
        · rw [chainOk, if_neg hemp] at h
          simp at h
      subst hh0
      cases fuel with
      | zero => rw [logLoop, if_pos rfl]
      | succ f => rw [logLoop, if_pos rfl]
  | cons hd l ih =>
    intro cur fuel h hf
    rcases hd with ⟨hh', cd⟩
    cases cur with
    | none => rw [chainOk] at h; simp at h
    | some hh =>
      rw [chainOk] at h
      by_cases hemp : hh = ""
      · rw [if_pos hemp] at h
        simp at h
      · rw [if_neg hemp] at h
        simp only [Bool.and_eq_true, decide_eq_true_eq] at h
        obtain ⟨⟨hIdEq, hent⟩, hrest⟩ := h
        subst hIdEq
        cases fuel with
        | zero => simp at hf
        | succ f =>
          rw [logLoop, if_neg hemp]
          rw [entryOk] at hent
          cases hsg : storeGet objs hh' with
          | none => rw [hsg] at hent; simp at hent
          | some s =>
            rw [hsg] at hent
            simp only [decide_eq_true_eq] at hent
            simp only [hsg, hent, ih cd.parent f hrest (by simpa using hf)]

/-- C4: for every commit chain reachable from Head (`chainOk`), `log` visits
exactly the commits along the parent pointers starting at Head, in that order
(newest first), terminates at the first `null` parent (fuel equal to the chain
length suffices), and yields exactly one entry per commit of the chain; and
each successful `commit` (with a fresh digest) extends the chain by exactly
one record at the front, so after `n` commits the log has `n` entries. -/
theorem log_visits_commit_chain :
    (∀ (st : RepoState) (l : List (String × CommitData)) (fuel : Nat),
        chainOk st.objects st.headFile l = true → l.length ≤ fuel →
        log st fuel = some l)
      ∧ (∀ (st : RepoState) (h m t u : String) (idx : List StagingEntry)
            (l : List (String × CommitData)),
          st.headFile = some h → st.indexFile = some idx →
          storeGet st.objects (newCommitHash m t u st idx) = none →
          chainOk st.objects st.headFile l = true →
          chainOk (commit m t u st).objects (commit m t u st).headFile
            ((newCommitHash m t u st idx, newCommitData m t u st idx) :: l) = true) := by
  constructor
  · intro st l fuel hc hf
    cases hh : st.headFile with
    | none =>
      rw [hh, chainOk] at hc
      have hl : l = [] := by
        cases l with
        | nil => rfl
        | cons a b => simp at hc
      subst hl
      simp [log, getCurrentHead, hh]
    | some h =>
      rw [hh] at hc
      simp only [log, getCurrentHead, hh]
      exact logLoop_chain st.objects l (some h) fuel hc hf
  · intro st h m t u idx l hh hidx hfresh hc
    have hcommit : commit m t u st
        = { objects := (newCommitHash m t u st idx,
                        stringifyCommit (newCommitData m t u st idx)) :: st.objects,
            headFile := some (newCommitHash m t u st idx),
            indexFile := some [] } := by rw [commit, hidx]
    rw [hcommit]
    rw [chainOk]
    rw [if_neg (show ¬newCommitHash m t u st idx = "" from hashObject_ne_empty _)]
    simp only [Bool.and_eq_true, decide_eq_true_eq]
    refine ⟨⟨by trivial, ?_⟩, ?_⟩
    · rw [entryOk, storeGet_cons, if_pos rfl]
      simp [parseCommit_rt]
    · have hparent : (newCommitData m t u st idx).parent = jsOrNull (some h) := by
        rw [newCommitData]
        rw [show getCurrentHead st = st.headFile from rfl, hh]
      by_cases hemp : h = ""
      · subst hemp
        have hl : l = [] := by
          cases l with
          | nil => rfl
          | cons a b =>
            rw [hh, chainOk, if_pos rfl] at hc
            simp at hc
        subst hl
        rw [hparent, show jsOrNull (some "") = none from rfl]
        rfl
      · rw [hparent, show jsOrNull (some h) = if h = "" then none else some h from rfl,
            if_neg hemp]
        apply chainOk_prepend _ _ _ hfresh
        rw [hh] at hc
        exact hc

theorem log_visits_commit_chain_witness :
    log demoState 1 = some [("d0d0", demoCommit)] :=
  log_visits_commit_chain.1 demoState [("d0d0", demoCommit)] 1 (by decide) (by decide)

end AriGit
